import Mathlib

/-!
Shallow embedding of `src/wordchain/wordchain.py` (word-ladder library).

A Python `str` is modelled as a `List Char`; a Python `set` of strings as a
deduplicated `List`; a Python `dict` as an association list looked up by key
equality; a raised exception as the `Except.error` branch of `Except`.

The one external call, `networkx.all_shortest_paths` on the directed graph
`nx.DiGraph(adjacency-dict)`, is modelled by its documented contract: the set
of all directed walks from source to target of minimum edge count, raising
(here: yielding the caught-and-emptied branch) when source or target is not a
node of the graph or the target is unreachable.
-/

/-- Python strings are finite sequences of characters. -/
abbrev Word := List Char

/-- Model of `string.ascii_lowercase`: the 26 lowercase ASCII letters, in order. -/
def asciiLowercase : List Char :=
  ['a', 'b', 'c', 'd', 'e', 'f', 'g', 'h', 'i', 'j', 'k', 'l', 'm',
   'n', 'o', 'p', 'q', 'r', 's', 't', 'u', 'v', 'w', 'x', 'y', 'z']

/-- A character of the 26-letter lowercase ASCII alphabet. -/
def isAsciiLower (c : Char) : Bool := asciiLowercase.contains c

/-- Model of Python `str.isalpha`: nonempty and every character alphabetic.
Python accepts every Unicode letter; `Char.isAlpha` covers the ASCII letters,
which is the fragment all inputs in this development exercise. -/
def pyIsAlpha (w : Word) : Bool := !w.isEmpty && w.all Char.isAlpha

deriving instance DecidableEq for Except

/-- The exceptions of `wordchain.errors` raised by the core module. -/
inductive WCError where
  | emptyWordList
  | nonAlpha (word : Word)
  | lengthMismatch
deriving DecidableEq, Repr

/-- The validation loop of `WordGraph.__init__`: per word, first the
`isalpha` check, then the length check against the first word's length. -/
def checkWords (len0 : Nat) : List Word → Except WCError Unit
  | [] => .ok ()
  | w :: ws =>
    if !(pyIsAlpha w) then .error (.nonAlpha w)
    else if w.length ≠ len0 then .error .lengthMismatch
    else checkWords len0 ws

/-- State of a Python `WordGraph` object: the common word length, the word
set (`set(word_list)`, as a deduplicated list) and the cached adjacency dict
(`self.graph`, empty until built). -/
structure WordGraph where
  wordLength : Nat
  wordList : List Word
  graph : List (Word × List Word)
deriving DecidableEq, Repr

/-- `WordGraph.__init__`: reject an empty list, validate each word, then
store the word set; `self.graph` starts as the empty dict. -/
def WordGraph.init (wordList : List Word) : Except WCError WordGraph :=
  if wordList.length = 0 then .error .emptyWordList
  else
    match checkWords (wordList.headD []).length wordList with
    | .error e => .error e
    | .ok _ => .ok ⟨(wordList.headD []).length, wordList.dedup, []⟩

/-- Python slicing assembly `word[:index] + letter + word[index + 1:]`. -/
def substAt (w : Word) (i : Nat) (c : Char) : Word :=
  w.take i ++ c :: w.drop (i + 1)

/-- `WordGraph.neighbours`: for every position and every lowercase letter,
substitute and keep the candidates present in the word set; the word itself
is removed at the end.  The Python set of survivors is modelled as the
deduplicated candidate list. -/
def WordGraph.neighbours (g : WordGraph) (word : Word) : List Word :=
  ((((List.range word.length).flatMap
      (fun i => asciiLowercase.map (fun c => substAt word i c))).filter
      (fun v => g.wordList.contains v)).dedup).filter
      (fun v => decide (v ≠ word))

/-- `WordGraph.build_word_graph`: the dict comprehension
`{word: self.neighbours(word) for word in self.word_list}`. -/
def WordGraph.buildWordGraph (g : WordGraph) : WordGraph :=
  { g with graph := g.wordList.map (fun w => (w, g.neighbours w)) }

/-- `WordGraph.get_graph`: build the graph if the cached dict is empty
(Python falsiness of `{}`), then return it; the returned pair is the
dict together with the post-call object state. -/
def WordGraph.getGraph (g : WordGraph) : List (Word × List Word) × WordGraph :=
  if g.graph.isEmpty then ((g.buildWordGraph).graph, g.buildWordGraph)
  else (g.graph, g)

/-- Python dict lookup `d[k]` as an option: the value of the first (and in
our dicts only) entry whose key equals `k`. -/
def dictGet {α β : Type} [DecidableEq α] (d : List (α × β)) (k : α) : Option β :=
  (d.find? (fun kv => decide (kv.1 = k))).map Prod.snd

/-- State of a Python `WordChain` result object: start word, end word and
the set of path tuples (a deduplicated list). -/
structure WordChain where
  startWord : Word
  endWord : Word
  paths : List (List Word)
deriving DecidableEq, Repr

/-- `WordChain.__init__`: the incoming collection of paths is materialised
as a set (`{tuple(p) for p in paths}`), modelled by deduplication. -/
def WordChain.make (s e : Word) (paths : List (List Word)) : WordChain :=
  ⟨s, e, paths.dedup⟩

/-- `WordChain.path_count`: the size of the stored path set. -/
def WordChain.pathCount (wc : WordChain) : Nat := wc.paths.length

/-- `WordChain.__contains__`: membership in the stored path set. -/
def WordChain.containsPath (wc : WordChain) (p : List Word) : Bool :=
  wc.paths.contains p

/-- All reversed walks of exactly `n` edges of the directed graph `adj`
starting (in forward direction) at `s`: a reversed walk is stored most
recent vertex first, so its head is the walk's endpoint. -/
def walksRev (adj : Word → List Word) (s : Word) : Nat → List (List Word)
  | 0 => [[s]]
  | n + 1 =>
    (walksRev adj s n).flatMap (fun w => (adj w.headI).map (fun v => v :: w))

/-- The smallest edge count `n ≤ bound` at which some walk from `s` ends at
`e`, if any: the breadth-first level at which `e` is reached. -/
def shortestLevel (adj : Word → List Word) (bound : Nat) (s e : Word) : Option Nat :=
  (List.range (bound + 1)).find?
    (fun n => !((walksRev adj s n).filter (fun w => decide (w.head? = some e))).isEmpty)

/-- Model of `networkx.all_shortest_paths` on the directed graph: every walk
from `s` to `e` whose edge count is the minimum one, in forward orientation.
`bound` is the number of nodes, enough levels to reach anything reachable. -/
def allShortestPaths (adj : Word → List Word) (bound : Nat) (s e : Word) :
    List (List Word) :=
  match shortestLevel adj bound s e with
  | none => []
  | some n =>
    ((walksRev adj s n).filter (fun w => decide (w.head? = some e))).map List.reverse

/-- State of a Python `WordChainer`: its `WordGraph` after `get_graph` was
called at construction (`self.nx_graph = nx.DiGraph(self.word_graph.get_graph())`),
so the adjacency dict is built. -/
structure WordChainer where
  wordGraph : WordGraph
deriving DecidableEq, Repr

/-- `WordChainer.__init__`: validate and build the word graph; the networkx
digraph is determined by the built adjacency dict and not stored separately. -/
def WordChainer.init (wordList : List Word) : Except WCError WordChainer := do
  let g ← WordGraph.init wordList
  pure ⟨(g.getGraph).2⟩

/-- The node set of `nx.DiGraph(adjacency-dict)`: all keys and all listed
successors, deduplicated. -/
def WordChainer.nodes (c : WordChainer) : List Word :=
  (c.wordGraph.graph.map Prod.fst ++ c.wordGraph.graph.flatMap Prod.snd).dedup

/-- Successors of a node in `nx.DiGraph(adjacency-dict)`: the dict entry if
present, otherwise none. -/
def WordChainer.adj (c : WordChainer) (w : Word) : List Word :=
  (dictGet c.wordGraph.graph w).getD []

/-- `WordChainer.get_chains`: raise on a length mismatch, otherwise collect
`nx.all_shortest_paths` into a set, with `NetworkXNoPath` and `NodeNotFound`
(source or target not a node, or target unreachable) caught as the empty set. -/
def WordChainer.getChains (c : WordChainer) (s e : Word) : Except WCError WordChain :=
  if s.length ≠ e.length then .error .lengthMismatch
  else
    .ok (WordChain.make s e
      (if c.nodes.contains s && c.nodes.contains e
       then allShortestPaths c.adj c.nodes.length s e
       else []))

/-- One step of the bucket-partition loop of `WordChainerCollection.__init__`:
`self.word_lists.setdefault(len(word), []).append(word)` on an
insertion-ordered dict. -/
def addToBuckets (bs : List (Nat × List Word)) (w : Word) : List (Nat × List Word) :=
  if bs.any (fun b => b.1 = w.length)
  then bs.map (fun b => if b.1 = w.length then (b.1, b.2 ++ [w]) else b)
  else bs ++ [(w.length, [w])]

/-- The by-length partition of a word list, in insertion order of lengths. -/
def buckets (wl : List Word) : List (Nat × List Word) := wl.foldl addToBuckets []

/-- State of a Python `WordChainerCollection`. -/
structure WordChainerCollection where
  originalList : List Word
  wordLists : List (Nat × List Word)
  wordChainers : List (Nat × WordChainer)
deriving DecidableEq, Repr

/-- `WordChainerCollection.__init__`: partition by length, then build one
`WordChainer` per bucket (each may raise during validation). -/
def WordChainerCollection.init (wl : List Word) :
    Except WCError WordChainerCollection := do
  let bs := buckets wl
  let cs ← bs.mapM (fun b => do
    let c ← WordChainer.init b.2
    pure (b.1, c))
  pure ⟨wl, bs, cs⟩

/-- `WordChainerCollection.get_chains`: dispatch on `len(start_word)`; a
missing bucket (`KeyError`) is caught and answered with an empty result. -/
def WordChainerCollection.getChains (col : WordChainerCollection) (s e : Word) :
    Except WCError WordChain :=
  match dictGet col.wordChainers s.length with
  | none => .ok (WordChain.make s e [])
  | some c => c.getChains s e

/-- The positions at which two words hold different characters (compared up
to the first word's length). -/
def diffPositions (w v : Word) : List Nat :=
  (List.range w.length).filter (fun i => decide (w.getD i ' ' ≠ v.getD i ' '))

/-- Two words of equal length differing at exactly one character position. -/
def differsByOne (w v : Word) : Prop :=
  v.length = w.length ∧ (diffPositions w v).length = 1

instance (w v : Word) : Decidable (differsByOne w v) := by
  unfold differsByOne; infer_instance

/-- A reversed walk of the directed graph `adj` whose forward start is `s`:
the list stores the walk backwards, so `s` is its last element and each
element is a successor of the one after it. -/
inductive RevWalk (adj : Word → List Word) (s : Word) : List Word → Prop where
  | single : RevWalk adj s [s]
  | cons : ∀ {v w ws}, RevWalk adj s (w :: ws) → v ∈ adj w →
      RevWalk adj s (v :: w :: ws)

/-- A walk of the networkx digraph of a `WordChainer` from `s` to `e`, in
forward orientation: nonempty, starts at `s`, ends at `e`, every consecutive
pair an edge, every vertex a node of the digraph. -/
def IsWalkFromTo (c : WordChainer) (s e : Word) (p : List Word) : Prop :=
  p.head? = some s ∧ p.getLast? = some e ∧
    List.Chain' (fun a b => b ∈ c.adj a) p ∧ ∀ v ∈ p, v ∈ c.nodes

-- Concrete data used by witnesses and counterexamples.

/-- The four-letter demo vocabulary of the repository's tests. -/
def demoList : List Word :=
  [['b','i','r','d'], ['b','i','n','d'], ['b','o','r','d'],
   ['b','o','n','d'], ['b','o','n','g'], ['s','o','n','g']]

def birdW : Word := ['b','i','r','d']

def songW : Word := ['s','o','n','g']

def catLower : Word := ['c','a','t']

def catUpper : Word := ['C','a','t']

def dogW : Word := ['d','o','g']

example : pyIsAlpha catUpper = true := by decide

example : (WordGraph.init [catUpper, catLower]).isOk = true := by decide

example : WordGraph.init [] = .error .emptyWordList := by decide

example : (WordChainerCollection.init []).isOk = true := by decide

def tinyList : List Word := [['a','b','c']]

def tinyCol : WordChainerCollection :=
  (WordChainerCollection.init tinyList).toOption.getD ⟨[], [], []⟩

def gCat : WordGraph :=
  (WordGraph.init [catUpper, catLower]).toOption.getD ⟨0, [], []⟩

-- Generic helper lemmas about the embedded operations.

theorem dictGet_map_pair {α β : Type} [DecidableEq α] (f : α → β) :
    ∀ (l : List α) (k : α), k ∈ l →
      dictGet (l.map (fun x => (x, f x))) k = some (f k) := by
  intro l
  induction l with
  | nil => intro k h; cases h
  | cons a t ih =>
    intro k h
    by_cases hak : a = k
    · subst hak
      simp [dictGet]
    · have hk : k ∈ t := by
        rcases List.mem_cons.mp h with h1 | h1
        · exact absurd h1.symm hak
        · exact h1
      have := ih k hk
      simp only [dictGet, List.map_cons, List.find?] at this ⊢
      simp [hak] at this ⊢
      exact this

theorem dictGet_mem {α β : Type} [DecidableEq α] {d : List (α × β)} {k : α} {b : β}
    (h : dictGet d k = some b) : (k, b) ∈ d := by
  unfold dictGet at h
  cases hf : d.find? (fun kv => decide (kv.1 = k)) with
  | none => rw [hf] at h; simp at h
  | some kv =>
    rw [hf] at h
    simp at h
    have hmem := List.mem_of_find?_eq_some hf
    have hkey : kv.1 = k := by
      have := List.find?_some hf
      simpa using this
    have : kv = (k, b) := by
      cases kv
      simp_all
    rw [this] at hmem
    exact hmem

theorem WordGraph.init_ok {wl : List Word} {g : WordGraph}
    (h : WordGraph.init wl = .ok g) :
    wl ≠ [] ∧ g.wordLength = (wl.headD []).length ∧
      g.wordList = wl.dedup ∧ g.graph = [] := by
  unfold WordGraph.init at h
  by_cases hlen : wl.length = 0
  · rw [if_pos hlen] at h; cases h
  · rw [if_neg hlen] at h
    cases hc : checkWords (wl.headD []).length wl with
    | error e => rw [hc] at h; cases h
    | ok u =>
      rw [hc] at h
      cases h
      refine ⟨?_, rfl, rfl, rfl⟩
      intro hnil
      exact hlen (by simp [hnil])

theorem WordGraph.neighbours_congr {g g' : WordGraph} (h : g.wordList = g'.wordList)
    (w : Word) : g.neighbours w = g'.neighbours w := by
  simp [WordGraph.neighbours, h]

theorem WordChainer.init_inv {wl : List Word} {c : WordChainer}
    (h : WordChainer.init wl = .ok c) :
    ∃ g, WordGraph.init wl = .ok g ∧ c.wordGraph = (g.getGraph).2 := by
  unfold WordChainer.init at h
  cases hg : WordGraph.init wl with
  | error e => rw [hg] at h; cases h
  | ok g =>
    rw [hg] at h
    cases h
    exact ⟨g, rfl, rfl⟩

theorem WordChainer.init_state {wl : List Word} {c : WordChainer}
    (h : WordChainer.init wl = .ok c) :
    c.wordGraph.wordList = wl.dedup ∧
      c.wordGraph.graph =
        c.wordGraph.wordList.map (fun w => (w, c.wordGraph.neighbours w)) := by
  obtain ⟨g, hg, hcg⟩ := WordChainer.init_inv h
  obtain ⟨-, -, hwl, hgraph⟩ := WordGraph.init_ok hg
  have hbuild : (g.getGraph).2 = g.buildWordGraph := by
    simp [WordGraph.getGraph, hgraph]
  have hwl2 : c.wordGraph.wordList = g.wordList := by
    rw [hcg, hbuild]; rfl
  constructor
  · rw [hwl2, hwl]
  · rw [hcg, hbuild]
    have hn : ∀ w, (g.buildWordGraph).neighbours w = g.neighbours w :=
      fun w => WordGraph.neighbours_congr rfl w
    show (g.buildWordGraph).graph =
      (g.buildWordGraph).wordList.map (fun w => (w, (g.buildWordGraph).neighbours w))
    simp only [hn]
    rfl

-- Claim C1: cross-length queries on a WordChainerCollection.

/-- C1 counterexample: on the collection built from the single word `abc`, a
query whose start word has an existing length bucket but whose end word has a
different length raises `LengthMismatchException` instead of returning an
empty result. -/
theorem collection_getChains_crossLength_raises_cex :
    WordChainerCollection.init tinyList = .ok tinyCol ∧
    (['a','b','c'] : Word).length ≠ (['a','b'] : Word).length ∧
    tinyCol.getChains ['a','b','c'] ['a','b'] = .error .lengthMismatch := by
  decide

/-- C1 (amended): for a collection and a query with `len(start) ≠ len(end)`,
the result is the empty `WordChain` when no bucket exists for `len(start)`,
and the `LengthMismatchException` error when such a bucket exists. -/
theorem collection_getChains_crossLength (wl : List Word)
    (col : WordChainerCollection) (s e : Word)
    (_hcol : WordChainerCollection.init wl = .ok col)
    (hne : s.length ≠ e.length) :
    col.getChains s e =
      if (dictGet col.wordChainers s.length).isSome
      then .error .lengthMismatch
      else .ok (WordChain.make s e []) := by
  unfold WordChainerCollection.getChains
  cases h : dictGet col.wordChainers s.length with
  | none => simp [h]
  | some c => simp [h, WordChainer.getChains, hne]

/-- C1 witness: the amended statement at the concrete collection over `abc`
and the cross-length query `abc` to `ab`. -/
theorem collection_getChains_crossLength_witness :
    WordChainerCollection.init tinyList = .ok tinyCol ∧
    (['a','b','c'] : Word).length ≠ (['a','b'] : Word).length ∧
    tinyCol.getChains ['a','b','c'] ['a','b'] =
      (if (dictGet tinyCol.wordChainers (['a','b','c'] : Word).length).isSome
       then .error .lengthMismatch
       else .ok (WordChain.make ['a','b','c'] ['a','b'] [])) :=
  ⟨by decide, by decide,
    collection_getChains_crossLength tinyList tinyCol ['a','b','c'] ['a','b']
      (by decide) (by decide)⟩

-- Claim C2: construction from an empty word list.

/-- C2 counterexample: constructing a `WordChainerCollection` from the empty
word list does not raise `EmptyInputError` — it succeeds, with no buckets. -/
theorem collection_empty_init_ok_cex :
    WordChainerCollection.init [] = .ok ⟨[], [], []⟩ := by
  decide

/-- C2 (amended): the build-from-list entry point (`WordGraph`, hence
`WordChainer`) raises `EmptyWordListException` on an empty word list, while
the build-from-mixed-list entry point (`WordChainerCollection`) constructs
successfully with zero buckets. -/
theorem emptyInput_construction_behaviour :
    WordGraph.init [] = .error .emptyWordList ∧
    WordChainer.init [] = .error .emptyWordList ∧
    WordChainerCollection.init [] = .ok ⟨[], [], []⟩ := by
  decide

-- Claim C9: idempotence and completeness of get_graph.

/-- C9: after a first `get_graph` call on a freshly validated `WordGraph`,
every further call returns the identical cached mapping and state, and that
mapping lists every word of the word set exactly once as a key, with its
`neighbours` list as value. -/
theorem getGraph_idempotent (wl : List Word) (g : WordGraph)
    (a1 : List (Word × List Word)) (g1 : WordGraph)
    (hg : WordGraph.init wl = .ok g) (h1 : g.getGraph = (a1, g1)) :
    g1.getGraph = (a1, g1) ∧ g1.graph = a1 ∧
    a1.map Prod.fst = g.wordList ∧ (a1.map Prod.fst).Nodup ∧
    ∀ w ∈ g.wordList, dictGet a1 w = some (g.neighbours w) := by
  obtain ⟨hne, -, hwl, hgraph⟩ := WordGraph.init_ok hg
  have hbuild : g.getGraph = ((g.buildWordGraph).graph, g.buildWordGraph) := by
    simp [WordGraph.getGraph, hgraph]
  rw [hbuild] at h1
  obtain ⟨ha1, hg1⟩ : (g.buildWordGraph).graph = a1 ∧ g.buildWordGraph = g1 := by
    cases h1; exact ⟨rfl, rfl⟩
  have hkeys : a1.map Prod.fst = g.wordList := by
    rw [← ha1]
    show (g.wordList.map (fun w => (w, g.neighbours w))).map Prod.fst = g.wordList
    rw [List.map_map]
    have hid : (Prod.fst ∘ fun w => ((w : Word), g.neighbours w)) = id := rfl
    rw [hid, List.map_id]
  have ha1def : a1 = g.wordList.map (fun w => (w, g.neighbours w)) := by
    rw [← ha1]; rfl
  have hwlne : g.wordList ≠ [] := by
    rw [hwl]
    simpa using hne
  have hGne : a1 ≠ [] := by
    rw [ha1def]
    simpa using hwlne
  refine ⟨?_, ?_, hkeys, ?_, ?_⟩
  · have : g1.graph = a1 := by rw [← hg1, ha1]
    simp [WordGraph.getGraph, this, List.isEmpty_iff, hGne]
  · rw [← hg1, ha1]
  · rw [hkeys, hwl]
    exact List.nodup_dedup wl
  · intro w hw
    rw [ha1def]
    exact dictGet_map_pair (fun w => g.neighbours w) g.wordList w hw

def wGDemo : WordGraph := (WordGraph.init demoList).toOption.getD ⟨0, [], []⟩

def wGDemoAdj : List (Word × List Word) := (wGDemo.getGraph).1

def wGDemoBuilt : WordGraph := (wGDemo.getGraph).2

/-- C9 witness: the statement at the demo vocabulary. -/
theorem getGraph_idempotent_witness :
    WordGraph.init demoList = .ok wGDemo ∧ wGDemo.getGraph = (wGDemoAdj, wGDemoBuilt) ∧
    (wGDemoBuilt.getGraph = (wGDemoAdj, wGDemoBuilt) ∧ wGDemoBuilt.graph = wGDemoAdj ∧
      wGDemoAdj.map Prod.fst = wGDemo.wordList ∧ (wGDemoAdj.map Prod.fst).Nodup ∧
      ∀ w ∈ wGDemo.wordList, dictGet wGDemoAdj w = some (wGDemo.neighbours w)) :=
  ⟨by decide, by decide,
    getGraph_idempotent demoList wGDemo wGDemoAdj wGDemoBuilt (by decide) (by decide)⟩

-- Claim C10: the validator accepts mixed-case words, neighbours is
-- lowercase-only, so a mixed-case word can be a one-sided neighbour.

/-- C10: `Cat` and `cat` both pass the `isalpha` validation, so the graph is
constructed; `cat` is a neighbour of `Cat` (substituting lowercase `c`), yet
`Cat` appears in no word's neighbour list, because only the 26 lowercase
letters are ever substituted. -/
theorem validator_mixedCase_asymmetry :
    pyIsAlpha catUpper = true ∧ pyIsAlpha catLower = true ∧
    WordGraph.init [catUpper, catLower] = .ok gCat ∧
    catUpper ∈ gCat.wordList ∧
    (gCat.neighbours catUpper).contains catLower = true ∧
    gCat.wordList.all (fun w => !(gCat.neighbours w).contains catUpper) = true := by
  decide

-- Claim C4 counterexample and claim C5 counterexample.

/-- C4 counterexample: in the validated graph over `{Cat, cat}`, the word
`Cat` is a member of the word set and differs from the query word `cat` at
exactly one character position, yet it is not in `neighbours(cat)`. -/
theorem neighbours_missing_mixedCase_cex :
    WordGraph.init [catUpper, catLower] = .ok gCat ∧
    catLower.length = gCat.wordLength ∧
    catUpper ∈ gCat.wordList ∧
    differsByOne catLower catUpper ∧
    (gCat.neighbours catLower).contains catUpper = false := by
  decide

/-- C5 counterexample: `Cat` and `cat` are both members of the validated
word set, `cat` is a neighbour of `Cat`, but `Cat` is not a neighbour of
`cat` — adjacency as computed is not symmetric on mixed-case words. -/
theorem neighbours_not_symm_mixedCase_cex :
    WordGraph.init [catUpper, catLower] = .ok gCat ∧
    catUpper ∈ gCat.wordList ∧ catLower ∈ gCat.wordList ∧
    (gCat.neighbours catUpper).contains catLower = true ∧
    (gCat.neighbours catLower).contains catUpper = false := by
  decide

-- Claim C8: WordChain result semantics.

theorem count_eq_one_of_nodup_mem {α : Type} [BEq α] [LawfulBEq α] :
    ∀ (l : List α), l.Nodup → ∀ p ∈ l, l.count p = 1 := by
  intro l
  induction l with
  | nil => intro _ p hp; cases hp
  | cons a t ih =>
    intro hnd p hp
    rw [List.nodup_cons] at hnd
    rw [List.count_cons]
    rcases List.mem_cons.mp hp with rfl | hpt
    · have ht : t.count p = 0 := by
        rw [List.count_eq_zero]
        exact hnd.1
      simp [ht]
    · have hne : a ≠ p := fun hc => hnd.1 (hc ▸ hpt)
      have ht : t.count p = 1 := ih hnd.2 p hpt
      simp [ht, hne]

/-- C8: a `WordChain` built from any collection of paths reports as
`path_count` the number of distinct paths, answers the membership test
positively exactly for the given paths, and its iteration sequence lists
each stored path exactly once. -/
theorem wordChain_count_mem_iter (s e : Word) (ps : List (List Word)) :
    (WordChain.make s e ps).pathCount = ps.toFinset.card ∧
    (∀ p, (WordChain.make s e ps).containsPath p = true ↔ p ∈ ps) ∧
    (∀ p ∈ ps, (WordChain.make s e ps).paths.count p = 1) ∧
    (∀ p ∈ (WordChain.make s e ps).paths, p ∈ ps) := by
  refine ⟨?_, ?_, ?_, ?_⟩
  · simp [WordChain.make, WordChain.pathCount, List.card_toFinset]
  · intro p
    simp [WordChain.make, WordChain.containsPath, List.elem_iff]
  · intro p hp
    have hnd : (ps.dedup).Nodup := List.nodup_dedup ps
    have hmem : p ∈ ps.dedup := List.mem_dedup.mpr hp
    simpa [WordChain.make] using count_eq_one_of_nodup_mem ps.dedup hnd p hmem
  · intro p hp
    exact List.mem_dedup.mp (by simpa [WordChain.make] using hp)

/-- C8 witness: the statement at a concrete duplicated path collection. -/
theorem wordChain_count_mem_iter_witness :
    (WordChain.make birdW songW [[birdW], [birdW], [songW]]).pathCount =
      ([[birdW], [birdW], [songW]] : List (List Word)).toFinset.card ∧
    (∀ p, (WordChain.make birdW songW [[birdW], [birdW], [songW]]).containsPath p = true ↔
      p ∈ ([[birdW], [birdW], [songW]] : List (List Word))) ∧
    (∀ p ∈ ([[birdW], [birdW], [songW]] : List (List Word)),
      (WordChain.make birdW songW [[birdW], [birdW], [songW]]).paths.count p = 1) ∧
    (∀ p ∈ (WordChain.make birdW songW [[birdW], [birdW], [songW]]).paths,
      p ∈ ([[birdW], [birdW], [songW]] : List (List Word))) :=
  wordChain_count_mem_iter birdW songW [[birdW], [birdW], [songW]]

-- Exact characterisation of the neighbours computation.

theorem contains_iff_mem {α : Type} [BEq α] [LawfulBEq α] (l : List α) (a : α) :
    l.contains a = true ↔ a ∈ l := List.elem_iff

theorem substAt_length (w : Word) (i : Nat) (h : i < w.length) (c : Char) :
    (substAt w i c).length = w.length := by
  simp [substAt]
  omega

theorem substAt_getElem? (w : Word) (i : Nat) (h : i < w.length) (c : Char) (j : Nat) :
    (substAt w i c)[j]? = if j = i then some c else w[j]? := by
  have htake : (w.take i).length = i := by
    simp [List.length_take]
    omega
  unfold substAt
  rcases lt_trichotomy j i with hj | hj | hj
  · rw [if_neg (by omega), List.getElem?_append_left (by omega)]
    exact List.getElem?_take_of_lt hj
  · subst hj
    rw [if_pos rfl, List.getElem?_append_right (by omega), htake]
    simp
  · rw [if_neg (by omega), List.getElem?_append_right (by omega), htake]
    have hsub : j - i = (j - i - 1) + 1 := by omega
    rw [hsub, List.getElem?_cons_succ, List.getElem?_drop]
    congr 1
    omega

theorem substAt_getD (w : Word) (i : Nat) (h : i < w.length) (c : Char) (j : Nat) :
    (substAt w i c).getD j ' ' = if j = i then c else w.getD j ' ' := by
  rw [List.getD_eq_getElem?_getD, substAt_getElem? w i h c j,
    List.getD_eq_getElem?_getD]
  by_cases hji : j = i <;> simp [hji]

theorem substAt_self (w : Word) (i : Nat) (h : i < w.length) :
    substAt w i (w.getD i ' ') = w := by
  apply List.ext_getElem?_iff.mpr
  intro j
  rw [substAt_getElem? w i h _ j]
  by_cases hji : j = i
  · subst hji
    rw [if_pos rfl, List.getElem?_eq_getElem h, List.getD_eq_getElem w ' ' h]
  · rw [if_neg hji]

theorem range_filter_eq_single (i : Nat) : ∀ n, i < n →
    (List.range n).filter (fun j => decide (j = i)) = [i] := by
  intro n
  induction n with
  | zero => intro h; omega
  | succ m ih =>
    intro h
    rw [List.range_succ, List.filter_append]
    by_cases him : i < m
    · rw [ih him]
      have hm : (List.filter (fun j => decide (j = i)) [m]) = [] := by
        simp
        omega
      rw [hm]
      simp
    · have him2 : i = m := by omega
      subst him2
      have h1 : (List.range i).filter (fun j => decide (j = i)) = [] := by
        rw [List.filter_eq_nil_iff]
        intro a ha
        have := List.mem_range.mp ha
        simp
        omega
      rw [h1]
      simp

theorem diffPositions_substAt (w : Word) (i : Nat) (h : i < w.length) (c : Char)
    (hne : c ≠ w.getD i ' ') :
    diffPositions w (substAt w i c) = [i] := by
  unfold diffPositions
  rw [← range_filter_eq_single i w.length h]
  apply List.filter_congr
  intro j hj
  have hjlt : j < w.length := List.mem_range.mp hj
  rw [substAt_getD w i h c j]
  rw [decide_eq_decide]
  by_cases hji : j = i
  · subst hji
    rw [if_pos rfl]
    constructor
    · intro _; rfl
    · intro _
      exact fun hc => hne hc.symm
  · rw [if_neg hji]
    constructor
    · intro hc; exact absurd rfl hc
    · intro hc; exact absurd hc hji

theorem mem_neighbours_iff (g : WordGraph) (w v : Word) :
    v ∈ g.neighbours w ↔
      v ∈ g.wordList ∧ differsByOne w v ∧
        ∀ i ∈ diffPositions w v, isAsciiLower (v.getD i ' ') = true := by
  constructor
  · intro hv
    unfold WordGraph.neighbours at hv
    rw [List.mem_filter] at hv
    obtain ⟨hv1, hvne⟩ := hv
    rw [List.mem_dedup, List.mem_filter] at hv1
    obtain ⟨hv2, hvin⟩ := hv1
    rw [List.mem_flatMap] at hv2
    obtain ⟨i, hi, hv3⟩ := hv2
    rw [List.mem_map] at hv3
    obtain ⟨c, hc, hveq⟩ := hv3
    have hilt : i < w.length := List.mem_range.mp hi
    have hvnew : v ≠ w := of_decide_eq_true hvne
    have hcne : c ≠ w.getD i ' ' := by
      intro hc2
      apply hvnew
      rw [← hveq, hc2, substAt_self w i hilt]
    have hvin2 : v ∈ g.wordList := (contains_iff_mem _ _).mp hvin
    have hdiff : diffPositions w v = [i] := by
      rw [← hveq]
      exact diffPositions_substAt w i hilt c hcne
    refine ⟨hvin2, ⟨?_, ?_⟩, ?_⟩
    · rw [← hveq]
      exact substAt_length w i hilt c
    · rw [hdiff]
      rfl
    · intro j hj
      rw [hdiff] at hj
      have hji : j = i := by simpa using hj
      subst hji
      have hvj : v.getD j ' ' = c := by
        rw [← hveq, substAt_getD w j hilt c j, if_pos rfl]
      rw [hvj]
      unfold isAsciiLower
      exact (contains_iff_mem _ _).mpr hc
  · intro h
    obtain ⟨hvl, ⟨hlen, hdp⟩, hlow⟩ := h
    obtain ⟨i, hdiff⟩ := List.length_eq_one.mp hdp
    have hmemi : i ∈ diffPositions w v := by
      rw [hdiff]
      exact List.mem_singleton.mpr rfl
    have hmemi' := hmemi
    unfold diffPositions at hmemi'
    rw [List.mem_filter] at hmemi'
    have hilt : i < w.length := List.mem_range.mp hmemi'.1
    have hpred : w.getD i ' ' ≠ v.getD i ' ' := of_decide_eq_true hmemi'.2
    have hagree : ∀ j, j < w.length → j ≠ i → w.getD j ' ' = v.getD j ' ' := by
      intro j hj hne
      by_contra hcon
      have hjmem : j ∈ diffPositions w v := by
        unfold diffPositions
        rw [List.mem_filter]
        exact ⟨List.mem_range.mpr hj, decide_eq_true hcon⟩
      rw [hdiff] at hjmem
      exact hne (by simpa using hjmem)
    have hlowi : isAsciiLower (v.getD i ' ') = true := hlow i hmemi
    have hcmem : v.getD i ' ' ∈ asciiLowercase := by
      unfold isAsciiLower at hlowi
      exact (contains_iff_mem _ _).mp hlowi
    have hveq : v = substAt w i (v.getD i ' ') := by
      apply List.ext_getElem?_iff.mpr
      intro j
      rw [substAt_getElem? w i hilt _ j]
      by_cases hji : j = i
      · subst hji
        rw [if_pos rfl]
        have hjv : j < v.length := by omega
        rw [List.getElem?_eq_getElem hjv, List.getD_eq_getElem v ' ' hjv]
      · rw [if_neg hji]
        by_cases hjw : j < w.length
        · have hjv : j < v.length := by omega
          rw [List.getElem?_eq_getElem hjv, List.getElem?_eq_getElem hjw]
          have := hagree j hjw hji
          rw [← List.getD_eq_getElem v ' ' hjv, ← List.getD_eq_getElem w ' ' hjw]
          rw [this]
        · rw [List.getElem?_eq_none_iff.mpr (by omega),
            List.getElem?_eq_none_iff.mpr (by omega)]
    unfold WordGraph.neighbours
    rw [List.mem_filter]
    refine ⟨?_, decide_eq_true ?_⟩
    · rw [List.mem_dedup, List.mem_filter]
      refine ⟨?_, ?_⟩
      · rw [List.mem_flatMap]
        refine ⟨i, List.mem_range.mpr hilt, ?_⟩
        rw [List.mem_map]
        exact ⟨v.getD i ' ', hcmem, hveq.symm⟩
      · exact (contains_iff_mem _ _).mpr hvl
    · intro hvw
      apply hpred
      rw [hvw]

def bindW : Word := ['b','i','n','d']

theorem diffPositions_comm (w v : Word) (hlen : v.length = w.length) :
    diffPositions w v = diffPositions v w := by
  unfold diffPositions
  rw [hlen]
  apply List.filter_congr
  intro j _
  rw [decide_eq_decide]
  exact ne_comm

theorem getD_mem_of_lt (l : Word) (i : Nat) (h : i < l.length) :
    l.getD i ' ' ∈ l := by
  rw [List.getD_eq_getElem l ' ' h]
  exact List.getElem_mem h

-- Claim C4 (amended).

/-- C4 (amended): for a validated graph and a query word of the graph's word
length, `neighbours(w)` is exactly the set of word-set members that differ
from `w` at exactly one character position AND whose character at that
position is one of the 26 lowercase ASCII letters (only such letters are ever
substituted); in particular `w` is never its own neighbour. -/
theorem neighbours_exact_characterisation (wl : List Word) (g : WordGraph)
    (_hg : WordGraph.init wl = .ok g) (w : Word) (_hw : w.length = g.wordLength)
    (v : Word) :
    (v ∈ g.neighbours w ↔
      v ∈ g.wordList ∧ differsByOne w v ∧
        ∀ i ∈ diffPositions w v, isAsciiLower (v.getD i ' ') = true) ∧
    w ∉ g.neighbours w := by
  refine ⟨mem_neighbours_iff g w v, ?_⟩
  intro hww
  obtain ⟨-, ⟨-, hdp⟩, -⟩ := (mem_neighbours_iff g w w).mp hww
  have hnil : diffPositions w w = [] := by
    unfold diffPositions
    rw [List.filter_eq_nil_iff]
    intro a _
    simp
  rw [hnil] at hdp
  cases hdp

/-- C4 witness: the amended characterisation at the demo graph, query word
`bird` and candidate `bind`. -/
theorem neighbours_exact_characterisation_witness :
    WordGraph.init demoList = .ok wGDemo ∧ birdW.length = wGDemo.wordLength ∧
    ((bindW ∈ wGDemo.neighbours birdW ↔
      bindW ∈ wGDemo.wordList ∧ differsByOne birdW bindW ∧
        ∀ i ∈ diffPositions birdW bindW, isAsciiLower (bindW.getD i ' ') = true) ∧
      birdW ∉ wGDemo.neighbours birdW) :=
  ⟨by decide, by decide,
    neighbours_exact_characterisation demoList wGDemo (by decide) birdW (by decide)
      bindW⟩

-- Claim C5 (amended).

/-- C5 (amended): for members `A`, `B` of the word set of a validated graph
that both consist solely of lowercase ASCII letters, `B` is a neighbour of
`A` iff `A` is a neighbour of `B`.  (Without the lowercase restriction the
equivalence fails, see the counterexample.) -/
theorem neighbours_symm_lowercase (wl : List Word) (g : WordGraph)
    (_hg : WordGraph.init wl = .ok g) (A B : Word)
    (hA : A ∈ g.wordList) (hB : B ∈ g.wordList)
    (hAlow : ∀ ch ∈ A, isAsciiLower ch = true)
    (hBlow : ∀ ch ∈ B, isAsciiLower ch = true) :
    B ∈ g.neighbours A ↔ A ∈ g.neighbours B := by
  rw [mem_neighbours_iff, mem_neighbours_iff]
  constructor
  · rintro ⟨-, ⟨hlen, hdp⟩, -⟩
    refine ⟨hA, ⟨hlen.symm, ?_⟩, ?_⟩
    · rw [← diffPositions_comm A B hlen]
      exact hdp
    · intro i hi
      rw [← diffPositions_comm A B hlen] at hi
      have hilt : i < A.length := by
        unfold diffPositions at hi
        rw [List.mem_filter] at hi
        exact List.mem_range.mp hi.1
      exact hAlow _ (getD_mem_of_lt A i hilt)
  · rintro ⟨-, ⟨hlen, hdp⟩, -⟩
    refine ⟨hB, ⟨hlen.symm, ?_⟩, ?_⟩
    · rw [← diffPositions_comm B A hlen]
      exact hdp
    · intro i hi
      rw [← diffPositions_comm B A hlen] at hi
      have hilt : i < B.length := by
        unfold diffPositions at hi
        rw [List.mem_filter] at hi
        exact List.mem_range.mp hi.1
      exact hBlow _ (getD_mem_of_lt B i hilt)

/-- C5 witness: symmetry at the demo graph for the all-lowercase members
`bird` and `bind`. -/
theorem neighbours_symm_lowercase_witness :
    WordGraph.init demoList = .ok wGDemo ∧
    birdW ∈ wGDemo.wordList ∧ bindW ∈ wGDemo.wordList ∧
    (bindW ∈ wGDemo.neighbours birdW ↔ birdW ∈ wGDemo.neighbours bindW) :=
  ⟨by decide, by decide, by decide,
    neighbours_symm_lowercase demoList wGDemo (by decide) birdW bindW
      (by decide) (by decide) (by decide) (by decide)⟩

-- Breadth-first enumeration: reversed walks and their characterisation.

theorem RevWalk.ne_nil {adj : Word → List Word} {s : Word} {w : List Word}
    (h : RevWalk adj s w) : w ≠ [] := by
  cases h <;> simp

theorem RevWalk.getLast_eq {adj : Word → List Word} {s : Word} {w : List Word}
    (h : RevWalk adj s w) : w.getLast? = some s := by
  induction h with
  | single => rfl
  | cons h1 _ ih => rw [List.getLast?_cons_cons]; exact ih

theorem revWalk_iff_chain {adj : Word → List Word} {s : Word} {w : List Word} :
    RevWalk adj s w ↔
      w ≠ [] ∧ w.getLast? = some s ∧ List.Chain' (fun a b => a ∈ adj b) w := by
  constructor
  · intro h
    refine ⟨h.ne_nil, h.getLast_eq, ?_⟩
    induction h with
    | single => simp
    | cons h1 h2 ih => exact List.chain'_cons.mpr ⟨h2, ih⟩
  · intro ⟨hne, hlast, hchain⟩
    induction w with
    | nil => exact absurd rfl hne
    | cons a t ih =>
      cases t with
      | nil =>
        have : a = s := by simpa using hlast
        subst this
        exact RevWalk.single
      | cons b t2 =>
        obtain ⟨hR, hch2⟩ := List.chain'_cons.mp hchain
        have hlast2 : (b :: t2).getLast? = some s := by
          rw [List.getLast?_cons_cons] at hlast
          exact hlast
        exact RevWalk.cons (ih (by simp) hlast2 hch2) hR

theorem mem_walksRev_iff (adj : Word → List Word) (s : Word) :
    ∀ n (w : List Word),
      w ∈ walksRev adj s n ↔ RevWalk adj s w ∧ w.length = n + 1 := by
  intro n
  induction n with
  | zero =>
    intro w
    constructor
    · intro hw
      have : w = [s] := by simpa [walksRev] using hw
      subst this
      exact ⟨RevWalk.single, rfl⟩
    · intro ⟨hw, hl⟩
      cases hw with
      | single => simp [walksRev]
      | cons h1 h2 => simp at hl
  | succ m ih =>
    intro w
    constructor
    · intro hw
      rw [walksRev, List.mem_flatMap] at hw
      obtain ⟨u, hu, hw2⟩ := hw
      rw [List.mem_map] at hw2
      obtain ⟨v, hv, hw3⟩ := hw2
      obtain ⟨hru, hlu⟩ := (ih u).mp hu
      obtain ⟨u0, us, hu0⟩ : ∃ u0 us, u = u0 :: us := by
        cases u with
        | nil => exact absurd rfl hru.ne_nil
        | cons u0 us => exact ⟨u0, us, rfl⟩
      subst hu0
      have hhead : (u0 :: us).headI = u0 := rfl
      rw [hhead] at hv
      rw [← hw3]
      exact ⟨RevWalk.cons hru hv, by simp [hlu]⟩
    · intro ⟨hw, hl⟩
      cases hw with
      | single => simp at hl
      | @cons v u0 us hru hv =>
        rw [walksRev, List.mem_flatMap]
        refine ⟨u0 :: us, (ih (u0 :: us)).mpr ⟨hru, ?_⟩, ?_⟩
        · simp at hl
          simp
          omega
        · rw [List.mem_map]
          exact ⟨v, hv, rfl⟩

theorem RevWalk.mem_closure {adj : Word → List Word} {s : Word} {w : List Word}
    (hw : RevWalk adj s w) (S : List Word) (hs : s ∈ S)
    (hadj : ∀ u v, v ∈ adj u → v ∈ S) : ∀ x ∈ w, x ∈ S := by
  induction hw with
  | single =>
    intro x hx
    have hxs : x = s := by simpa using hx
    subst hxs
    exact hs
  | @cons v u us h1 h2 ih =>
    intro x hx
    rcases List.mem_cons.mp hx with rfl | hx2
    · exact hadj u x h2
    · exact ih x hx2

theorem exists_dup_decomposition {α : Type} :
    ∀ (l : List α), ¬ l.Nodup →
      ∃ l1 x l2 l3, l = l1 ++ x :: l2 ++ x :: l3 := by
  intro l
  induction l with
  | nil => intro h; exact absurd List.nodup_nil h
  | cons a t ih =>
    intro h
    rw [List.nodup_cons] at h
    by_cases hat : a ∈ t
    · obtain ⟨l2, l3, ht⟩ := List.append_of_mem hat
      exact ⟨[], a, l2, l3, by rw [ht]; rfl⟩
    · have hnd : ¬ t.Nodup := fun hn => h ⟨hat, hn⟩
      obtain ⟨l1, x, l2, l3, ht⟩ := ih hnd
      exact ⟨a :: l1, x, l2, l3, by rw [ht]; rfl⟩

theorem revWalk_shorten {adj : Word → List Word} {s e : Word}
    (w : List Word) (hw : RevWalk adj s w) (hhead : w.head? = some e)
    (hnd : ¬ w.Nodup) :
    ∃ w', RevWalk adj s w' ∧ w'.head? = some e ∧ w'.length < w.length := by
  obtain ⟨w1, x, w2, w3, hdec⟩ := exists_dup_decomposition w hnd
  obtain ⟨hne, hlast, hchain⟩ := revWalk_iff_chain.mp hw
  refine ⟨w1 ++ x :: w3, ?_, ?_, ?_⟩
  · rw [revWalk_iff_chain]
    refine ⟨by simp, ?_, ?_⟩
    · rw [List.getLast?_append_of_ne_nil _ (by simp)]
      rw [hdec] at hlast
      have hassoc : w1 ++ x :: w2 ++ x :: w3 = (w1 ++ x :: w2) ++ (x :: w3) := by
        simp
      rw [hassoc, List.getLast?_append_of_ne_nil _ (by simp)] at hlast
      exact hlast
    · rw [hdec] at hchain
      obtain ⟨hc1, hc2, hj⟩ := List.chain'_append.mp hchain
      obtain ⟨hc1a, hc1b, hj1⟩ := List.chain'_append.mp hc1
      rw [List.chain'_append]
      refine ⟨hc1a, hc2, ?_⟩
      intro a ha y hy
      have hxy : x = y := by simpa using hy
      rw [← hxy]
      exact hj1 a ha x (by simp)
  · rw [hdec] at hhead
    rw [List.head?_append, List.head?_append] at hhead
    rw [List.head?_append]
    simp only [List.head?_cons] at hhead ⊢
    have hsx : ((some x).or (some x) : Option Word) = some x := rfl
    rw [Option.or_assoc, hsx] at hhead
    exact hhead
  · rw [hdec]
    simp
    omega

theorem revWalk_to_nodup {adj : Word → List Word} {s e : Word} :
    ∀ (n : Nat) (w : List Word), w.length ≤ n → RevWalk adj s w →
      w.head? = some e →
      ∃ w', RevWalk adj s w' ∧ w'.head? = some e ∧
        w'.length ≤ w.length ∧ w'.Nodup := by
  intro n
  induction n with
  | zero =>
    intro w hlen hw _
    have := hw.ne_nil
    cases w with
    | nil => exact absurd rfl this
    | cons a t => simp at hlen
  | succ m ih =>
    intro w hlen hw hhead
    by_cases hnd : w.Nodup
    · exact ⟨w, hw, hhead, le_refl _, hnd⟩
    · obtain ⟨w2, hw2, hh2, hl2⟩ := revWalk_shorten w hw hhead hnd
      obtain ⟨w', hw', hh', hl', hnd'⟩ := ih w2 (by omega) hw2 hh2
      exact ⟨w', hw', hh', by omega, hnd'⟩

theorem nodup_subset_length_le {w S : List Word} (hnd : w.Nodup)
    (hsub : ∀ x ∈ w, x ∈ S) (hndS : S.Nodup) : w.length ≤ S.length := by
  have h1 : w.toFinset.card = w.length := List.toFinset_card_of_nodup hnd
  have h2 : S.toFinset.card = S.length := List.toFinset_card_of_nodup hndS
  have h3 : w.toFinset ⊆ S.toFinset := by
    intro x hx
    rw [List.mem_toFinset] at hx ⊢
    exact hsub x hx
  have := Finset.card_le_card h3
  omega

theorem find?_range_eq_some {p : Nat → Bool} :
    ∀ {b n : Nat}, (List.range b).find? p = some n →
      p n = true ∧ n < b ∧ ∀ m < n, p m = false := by
  intro b
  induction b with
  | zero => intro n h; simp [List.range_zero] at h
  | succ k ih =>
    intro n h
    rw [List.range_succ, List.find?_append] at h
    cases hk : (List.range k).find? p with
    | some n' =>
      rw [hk] at h
      simp at h
      subst h
      obtain ⟨h1, h2, h3⟩ := ih hk
      exact ⟨h1, by omega, h3⟩
    | none =>
      rw [hk] at h
      simp at h
      have hall := List.find?_eq_none.mp hk
      obtain ⟨hpk, hkn⟩ := h
      subst hkn
      refine ⟨hpk, by omega, ?_⟩
      intro m hm
      have := hall m (List.mem_range.mpr hm)
      simpa using this

theorem adj_mem_nodes (c : WordChainer) (u v : Word) (h : v ∈ c.adj u) :
    v ∈ c.nodes := by
  unfold WordChainer.adj at h
  cases hd : dictGet c.wordGraph.graph u with
  | none => rw [hd] at h; simp at h
  | some l =>
    rw [hd] at h
    simp at h
    have hmem := dictGet_mem hd
    unfold WordChainer.nodes
    rw [List.mem_dedup, List.mem_append]
    right
    rw [List.mem_flatMap]
    exact ⟨(u, l), hmem, h⟩

theorem nodes_nodup (c : WordChainer) : c.nodes.Nodup := by
  unfold WordChainer.nodes
  exact List.nodup_dedup _

theorem isWalkFromTo_iff_revWalk (c : WordChainer) (s e : Word) (p : List Word) :
    IsWalkFromTo c s e p ↔
      RevWalk c.adj s p.reverse ∧ p.reverse.head? = some e ∧ s ∈ c.nodes := by
  constructor
  · intro ⟨hh, hl, hc, hm⟩
    refine ⟨?_, ?_, ?_⟩
    · rw [revWalk_iff_chain]
      refine ⟨?_, ?_, ?_⟩
      · simp
        intro hp
        rw [hp] at hh
        cases hh
      · rw [List.getLast?_reverse]
        exact hh
      · rw [List.chain'_reverse]
        exact hc
    · rw [List.head?_reverse]
      exact hl
    · exact hm s (List.mem_of_mem_head? (by rw [hh]; rfl))
  · intro ⟨hr, hhr, hs⟩
    obtain ⟨hne, hlast, hchain⟩ := revWalk_iff_chain.mp hr
    refine ⟨?_, ?_, ?_, ?_⟩
    · rw [← List.getLast?_reverse]
      exact hlast
    · rw [← List.head?_reverse]
      exact hhr
    · exact List.chain'_reverse.mp hchain
    · intro v hv
      have hv2 : v ∈ p.reverse := List.mem_reverse.mpr hv
      exact hr.mem_closure c.nodes hs (adj_mem_nodes c) v hv2

-- Soundness, minimality and completeness of allShortestPaths.

theorem allShortestPaths_sound {adj : Word → List Word} {bound : Nat}
    {s e : Word} {n : Nat} (hlev : shortestLevel adj bound s e = some n) :
    ∀ p ∈ allShortestPaths adj bound s e,
      p.length = n + 1 ∧ RevWalk adj s p.reverse ∧ p.reverse.head? = some e := by
  intro p hp
  unfold allShortestPaths at hp
  rw [hlev] at hp
  rw [List.mem_map] at hp
  obtain ⟨w, hw, hpw⟩ := hp
  rw [List.mem_filter] at hw
  obtain ⟨hw1, hw2⟩ := hw
  obtain ⟨hrw, hlw⟩ := (mem_walksRev_iff adj s n w).mp hw1
  have hph : p.reverse = w := by rw [← hpw, List.reverse_reverse]
  refine ⟨?_, ?_, ?_⟩
  · rw [← hpw, List.length_reverse]
    exact hlw
  · rw [hph]
    exact hrw
  · rw [hph]
    exact of_decide_eq_true hw2

theorem allShortestPaths_minimal {adj : Word → List Word} {bound : Nat}
    {s e : Word} {n : Nat} (hlev : shortestLevel adj bound s e = some n) :
    ∀ w, RevWalk adj s w → w.head? = some e → n + 1 ≤ w.length := by
  intro w hw hh
  obtain ⟨hpn, hnb, hmin⟩ := find?_range_eq_some hlev
  obtain ⟨w0, ws, hw0⟩ : ∃ w0 ws, w = w0 :: ws := by
    cases w with
    | nil => exact absurd rfl hw.ne_nil
    | cons w0 ws => exact ⟨w0, ws, rfl⟩
  by_contra hcon
  push_neg at hcon
  have hm : w.length - 1 < n := by
    subst hw0
    simp at hcon ⊢
    omega
  have hfalse := hmin (w.length - 1) hm
  have hwm : w ∈ walksRev adj s (w.length - 1) := by
    apply (mem_walksRev_iff adj s (w.length - 1) w).mpr
    refine ⟨hw, ?_⟩
    subst hw0
    simp
  have : w ∈ (walksRev adj s (w.length - 1)).filter
      (fun u => decide (u.head? = some e)) := by
    rw [List.mem_filter]
    exact ⟨hwm, decide_eq_true hh⟩
  simp only [Bool.not_eq_false', List.isEmpty_iff] at hfalse
  rw [hfalse] at this
  cases this

theorem allShortestPaths_complete {adj : Word → List Word} {bound : Nat}
    {s e : Word} {n : Nat} (hlev : shortestLevel adj bound s e = some n) :
    ∀ w, RevWalk adj s w → w.head? = some e → w.length = n + 1 →
      w.reverse ∈ allShortestPaths adj bound s e := by
  intro w hw hh hl
  unfold allShortestPaths
  rw [hlev]
  rw [List.mem_map]
  refine ⟨w, ?_, rfl⟩
  rw [List.mem_filter]
  exact ⟨(mem_walksRev_iff adj s n w).mpr ⟨hw, hl⟩, decide_eq_true hh⟩

theorem allShortestPaths_none {adj : Word → List Word} {bound : Nat}
    {s e : Word} (hlev : shortestLevel adj bound s e = none)
    (S : List Word) (hs : s ∈ S) (hadj : ∀ u v, v ∈ adj u → v ∈ S)
    (hndS : S.Nodup) (hSb : S.length ≤ bound) :
    ∀ w, RevWalk adj s w → w.head? = some e → False := by
  intro w hw hh
  have hwb : w.length ≤ w.length := le_refl _
  obtain ⟨w', hw', hh', hl', hnd'⟩ := revWalk_to_nodup w.length w hwb hw hh
  have hsub : ∀ x ∈ w', x ∈ S := hw'.mem_closure S hs hadj
  have hlen : w'.length ≤ bound := le_trans (nodup_subset_length_le hnd' hsub hndS) hSb
  obtain ⟨w0, ws, hw0⟩ : ∃ w0 ws, w' = w0 :: ws := by
    cases w' with
    | nil => exact absurd rfl hw'.ne_nil
    | cons w0 ws => exact ⟨w0, ws, rfl⟩
  have hm : w'.length - 1 < bound + 1 := by omega
  have hall := List.find?_eq_none.mp hlev
  have hfalse := hall (w'.length - 1) (List.mem_range.mpr hm)
  have hwm : w' ∈ walksRev adj s (w'.length - 1) := by
    apply (mem_walksRev_iff adj s (w'.length - 1) w').mpr
    refine ⟨hw', ?_⟩
    subst hw0
    simp
  have hthis : w' ∈ (walksRev adj s (w'.length - 1)).filter
      (fun u => decide (u.head? = some e)) := by
    rw [List.mem_filter]
    exact ⟨hwm, decide_eq_true hh'⟩
  apply hfalse
  rw [Bool.not_eq_true']
  cases hb : ((walksRev adj s (w'.length - 1)).filter
      (fun u => decide (u.head? = some e))).isEmpty with
  | false => rfl
  | true =>
    rw [List.isEmpty_iff] at hb
    rw [hb] at hthis
    cases hthis

theorem getChains_ok_inv (c : WordChainer) (s e : Word) (R : WordChain)
    (h : c.getChains s e = .ok R) :
    s.length = e.length ∧
      R = WordChain.make s e
        (if c.nodes.contains s && c.nodes.contains e
         then allShortestPaths c.adj c.nodes.length s e
         else []) := by
  unfold WordChainer.getChains at h
  by_cases hl : s.length ≠ e.length
  · rw [if_pos hl] at h
    cases h
  · rw [if_neg hl] at h
    cases h
    exact ⟨by omega, rfl⟩

-- Claim C3.

/-- C3: whenever `get_chains` returns a result, the returned path set
consists exactly of the start-to-end walks of the digraph achieving the
minimum edge length: every returned path is such a walk, all returned paths
share one length, none is longer than any start-to-end walk, and every walk
of minimum length is returned. -/
theorem getChains_all_shortest_paths (wl : List Word) (c : WordChainer)
    (s e : Word) (R : WordChain)
    (_hc : WordChainer.init wl = .ok c)
    (h : c.getChains s e = .ok R) :
    (∀ p ∈ R.paths, IsWalkFromTo c s e p) ∧
    (∀ p ∈ R.paths, ∀ q ∈ R.paths, p.length = q.length) ∧
    (∀ p ∈ R.paths, ∀ q, IsWalkFromTo c s e q → p.length ≤ q.length) ∧
    (∀ q, IsWalkFromTo c s e q →
      (∀ q', IsWalkFromTo c s e q' → q.length ≤ q'.length) → q ∈ R.paths) := by
  obtain ⟨hlen, hR⟩ := getChains_ok_inv c s e R h
  subst hR
  simp only [WordChain.make]
  by_cases hb : (c.nodes.contains s && c.nodes.contains e) = true
  · rw [if_pos hb]
    have hs : s ∈ c.nodes :=
      (contains_iff_mem _ _).mp (Bool.and_eq_true_iff.mp hb).1
    cases hlev : shortestLevel c.adj c.nodes.length s e with
    | none =>
      have hasp : allShortestPaths c.adj c.nodes.length s e = [] := by
        unfold allShortestPaths
        rw [hlev]
      rw [hasp]
      refine ⟨?_, ?_, ?_, ?_⟩
      · intro p hp; simp at hp
      · intro p hp; simp at hp
      · intro p hp; simp at hp
      · intro q hq _
        exfalso
        obtain ⟨hr, hhr, -⟩ := (isWalkFromTo_iff_revWalk c s e q).mp hq
        exact allShortestPaths_none hlev c.nodes hs (adj_mem_nodes c)
          (nodes_nodup c) (le_refl _) q.reverse hr hhr
    | some n =>
      refine ⟨?_, ?_, ?_, ?_⟩
      · intro p hp
        rw [List.mem_dedup] at hp
        obtain ⟨-, hr, hhr⟩ := allShortestPaths_sound hlev p hp
        exact (isWalkFromTo_iff_revWalk c s e p).mpr ⟨hr, hhr, hs⟩
      · intro p hp q hq
        rw [List.mem_dedup] at hp hq
        obtain ⟨hlp, -, -⟩ := allShortestPaths_sound hlev p hp
        obtain ⟨hlq, -, -⟩ := allShortestPaths_sound hlev q hq
        rw [hlp, hlq]
      · intro p hp q hq
        rw [List.mem_dedup] at hp
        obtain ⟨hlp, -, -⟩ := allShortestPaths_sound hlev p hp
        obtain ⟨hr, hhr, -⟩ := (isWalkFromTo_iff_revWalk c s e q).mp hq
        have := allShortestPaths_minimal hlev q.reverse hr hhr
        rw [List.length_reverse] at this
        omega
      · intro q hq hqmin
        obtain ⟨hr, hhr, -⟩ := (isWalkFromTo_iff_revWalk c s e q).mp hq
        have hqlow := allShortestPaths_minimal hlev q.reverse hr hhr
        rw [List.length_reverse] at hqlow
        obtain ⟨hpn, -, -⟩ := find?_range_eq_some hlev
        rw [Bool.not_eq_true'] at hpn
        obtain ⟨w0, hw0⟩ := List.exists_mem_of_ne_nil
          ((walksRev c.adj s n).filter (fun w => decide (w.head? = some e)))
          (by
            intro hnil
            rw [hnil] at hpn
            simp at hpn)
        rw [List.mem_filter] at hw0
        obtain ⟨hw0m, hw0h⟩ := hw0
        obtain ⟨hw0r, hw0l⟩ := (mem_walksRev_iff c.adj s n w0).mp hw0m
        have hp0 : IsWalkFromTo c s e w0.reverse := by
          apply (isWalkFromTo_iff_revWalk c s e w0.reverse).mpr
          rw [List.reverse_reverse]
          exact ⟨hw0r, of_decide_eq_true hw0h, hs⟩
        have hqhigh := hqmin w0.reverse hp0
        rw [List.length_reverse, hw0l] at hqhigh
        have hql : q.reverse.length = n + 1 := by
          rw [List.length_reverse]
          omega
        have := allShortestPaths_complete hlev q.reverse hr hhr hql
        rw [List.reverse_reverse] at this
        rw [List.mem_dedup]
        exact this
  · rw [if_neg hb]
    refine ⟨?_, ?_, ?_, ?_⟩
    · intro p hp; simp at hp
    · intro p hp; simp at hp
    · intro p hp; simp at hp
    · intro q hq _
      exfalso
      apply hb
      obtain ⟨hh, hl, -, hm⟩ := hq
      have hsq : s ∈ q := List.mem_of_mem_head? (by rw [hh]; rfl)
      have heq : e ∈ q := List.mem_of_mem_getLast? (by rw [hl]; rfl)
      rw [Bool.and_eq_true_iff]
      exact ⟨(contains_iff_mem _ _).mpr (hm s hsq),
        (contains_iff_mem _ _).mpr (hm e heq)⟩

theorem mem_nodes_of_mem_wordList {wl : List Word} {c : WordChainer}
    (hc : WordChainer.init wl = .ok c) {A : Word}
    (hA : A ∈ c.wordGraph.wordList) : A ∈ c.nodes := by
  obtain ⟨hwlst, hgr⟩ := WordChainer.init_state hc
  unfold WordChainer.nodes
  rw [List.mem_dedup, List.mem_append]
  left
  rw [hgr, List.map_map]
  have hid : (Prod.fst ∘ fun w => ((w : Word), c.wordGraph.neighbours w)) = id := rfl
  rw [hid, List.map_id]
  exact hA

-- Claim C6.

/-- C6: for any member `A` of the validated word set, `get_chains(A, A)`
returns the result whose path set is exactly the single-element sequence
`[A]`, with `path_count` 1, and raises no error. -/
theorem getChains_self_singleton (wl : List Word) (c : WordChainer) (A : Word)
    (hc : WordChainer.init wl = .ok c) (hA : A ∈ c.wordGraph.wordList) :
    c.getChains A A = .ok (WordChain.make A A [[A]]) ∧
    (WordChain.make A A [[A]]).pathCount = 1 := by
  have hnode : A ∈ c.nodes := mem_nodes_of_mem_wordList hc hA
  have hcont : c.nodes.contains A = true := (contains_iff_mem _ _).mpr hnode
  constructor
  · unfold WordChainer.getChains
    rw [if_neg (by simp)]
    have hlev : shortestLevel c.adj c.nodes.length A A = some 0 := by
      unfold shortestLevel
      rw [List.range_succ_eq_map]
      apply List.find?_cons_of_pos
      simp [walksRev]
    have hasp : allShortestPaths c.adj c.nodes.length A A = [[A]] := by
      unfold allShortestPaths
      rw [hlev]
      simp [walksRev]
    rw [hcont]
    simp [hasp]
  · simp [WordChain.make, WordChain.pathCount]

-- Claim C7.

/-- C7: for an equal-length query where the start or end word is not a node
of the digraph, or no walk connects them, `get_chains` returns a result with
an empty path set and raises no error. -/
theorem getChains_absent_or_unreachable_empty (wl : List Word) (c : WordChainer)
    (s e : Word) (_hc : WordChainer.init wl = .ok c)
    (hlen : s.length = e.length)
    (h : s ∉ c.nodes ∨ e ∉ c.nodes ∨ ∀ p, ¬ IsWalkFromTo c s e p) :
    c.getChains s e = .ok (WordChain.make s e []) := by
  unfold WordChainer.getChains
  rw [if_neg (by omega)]
  by_cases hb : (c.nodes.contains s && c.nodes.contains e) = true
  · have hs : s ∈ c.nodes :=
      (contains_iff_mem _ _).mp (Bool.and_eq_true_iff.mp hb).1
    have he : e ∈ c.nodes :=
      (contains_iff_mem _ _).mp (Bool.and_eq_true_iff.mp hb).2
    have hwalk : ∀ p, ¬ IsWalkFromTo c s e p := by
      rcases h with h1 | h2 | h3
      · exact absurd hs h1
      · exact absurd he h2
      · exact h3
    have hasp : allShortestPaths c.adj c.nodes.length s e = [] := by
      unfold allShortestPaths
      cases hlev : shortestLevel c.adj c.nodes.length s e with
      | none => rfl
      | some n =>
        exfalso
        obtain ⟨hpn, -, -⟩ := find?_range_eq_some hlev
        rw [Bool.not_eq_true'] at hpn
        obtain ⟨w0, hw0⟩ := List.exists_mem_of_ne_nil
          ((walksRev c.adj s n).filter (fun w => decide (w.head? = some e)))
          (by
            intro hnil
            rw [hnil] at hpn
            simp at hpn)
        rw [List.mem_filter] at hw0
        obtain ⟨hw0m, hw0h⟩ := hw0
        obtain ⟨hw0r, -⟩ := (mem_walksRev_iff c.adj s n w0).mp hw0m
        apply hwalk w0.reverse
        apply (isWalkFromTo_iff_revWalk c s e w0.reverse).mpr
        rw [List.reverse_reverse]
        exact ⟨hw0r, of_decide_eq_true hw0h, hs⟩
    rw [if_pos hb, hasp]
  · rw [if_neg hb]

def demoChainer : WordChainer :=
  (WordChainer.init demoList).toOption.getD ⟨⟨0, [], []⟩⟩

def demoResult : WordChain :=
  (demoChainer.getChains birdW songW).toOption.getD (WordChain.make [] [] [])

def abcdW : Word := ['a','b','c','d']

/-- C3 witness: the statement at the demo vocabulary, from `bird` to `song`
(two shortest paths of five words each). -/
theorem getChains_all_shortest_paths_witness :
    WordChainer.init demoList = .ok demoChainer ∧
    demoChainer.getChains birdW songW = .ok demoResult ∧
    ((∀ p ∈ demoResult.paths, IsWalkFromTo demoChainer birdW songW p) ∧
     (∀ p ∈ demoResult.paths, ∀ q ∈ demoResult.paths, p.length = q.length) ∧
     (∀ p ∈ demoResult.paths, ∀ q, IsWalkFromTo demoChainer birdW songW q →
        p.length ≤ q.length) ∧
     (∀ q, IsWalkFromTo demoChainer birdW songW q →
        (∀ q', IsWalkFromTo demoChainer birdW songW q' → q.length ≤ q'.length) →
        q ∈ demoResult.paths)) :=
  ⟨by decide, by decide,
    getChains_all_shortest_paths demoList demoChainer birdW songW demoResult
      (by decide) (by decide)⟩

/-- C6 witness: the self-query statement at the demo vocabulary and `bird`. -/
theorem getChains_self_singleton_witness :
    WordChainer.init demoList = .ok demoChainer ∧
    birdW ∈ demoChainer.wordGraph.wordList ∧
    (demoChainer.getChains birdW birdW = .ok (WordChain.make birdW birdW [[birdW]]) ∧
     (WordChain.make birdW birdW [[birdW]]).pathCount = 1) :=
  ⟨by decide, by decide,
    getChains_self_singleton demoList demoChainer birdW (by decide) (by decide)⟩

/-- C7 witness: the absent-word statement at the demo vocabulary, querying
from `bird` to the absent equal-length word `abcd`. -/
theorem getChains_absent_or_unreachable_empty_witness :
    WordChainer.init demoList = .ok demoChainer ∧
    birdW.length = abcdW.length ∧
    demoChainer.getChains birdW abcdW = .ok (WordChain.make birdW abcdW []) :=
  ⟨by decide, by decide,
    getChains_absent_or_unreachable_empty demoList demoChainer birdW abcdW
      (by decide) (by decide) (Or.inr (Or.inl (by decide)))⟩
